import Mathlib

/-!
Shallow embedding of `linkedbst.py` (class `LinkedBST`, a link-based binary
search tree built from `BSTNode` objects), together with proofs about its
operations.

A Python `BSTNode` reference is either `None` or a node holding `data`,
`left` and `right`; this is the inductive type `Tree`.  The `LinkedBST`
object itself holds `_root` and the `_size` counter inherited from
`AbstractCollection`; this is the structure `LinkedBST`.  Machine-level
Python integers are unbounded, so item values are modelled as `Int`
(and as `Rat` where a claim is about non-integer comparable items).
Operations that can raise are modelled with `Except Unit`.
-/

set_option linter.unusedSectionVars false

namespace LinkedBSTModel

/-- A `BSTNode` reference: `leaf` is Python `None`; `node l x r` is a
`BSTNode` with `left = l`, `data = x`, `right = r`. -/
inductive Tree (α : Type) where
  | leaf : Tree α
  | node (left : Tree α) (data : α) (right : Tree α) : Tree α
deriving DecidableEq

variable {α : Type} [LinearOrder α]

/-- Python `inorder`: recursive left-self-right collection into a list. -/
def Tree.inorder : Tree α → List α
  | .leaf => []
  | .node l x r => l.inorder ++ x :: r.inorder

/-- Number of nodes reachable from a root. -/
def Tree.count : Tree α → Nat
  | .leaf => 0
  | .node l _ r => l.count + 1 + r.count

/-- The state of a `LinkedBST` object: the `_root` link and the `_size`
counter maintained by `AbstractCollection`. -/
structure LinkedBST (α : Type) where
  root : Tree α
  size : Nat
deriving DecidableEq

/-- Python `isEmpty` (from `AbstractCollection`): `len(self) == 0`. -/
def isEmpty (b : LinkedBST α) : Bool := b.size == 0

/-- The helper `recurse` of Python `add`: descend and attach a fresh node.
The source stops one level above the attachment point (it writes
`node.left = BSTNode(item)` instead of recursing into `None`); attaching at
a `leaf` yields the identical tree.  Items `< data` go left, ties and
greater items go right. -/
def Tree.insertItem : Tree α → α → Tree α
  | .leaf, item => .node .leaf item .leaf
  | .node l x r, item =>
    if item < x then .node (l.insertItem item) x r
    else .node l x (r.insertItem item)

/-- Python `add`: when `isEmpty()` the item becomes the root, otherwise it
is attached by descent; `_size` is always incremented by 1. -/
def add (b : LinkedBST α) (item : α) : LinkedBST α :=
  if b.size = 0 then ⟨.node .leaf item .leaf, b.size + 1⟩
  else ⟨b.root.insertItem item, b.size + 1⟩

/-- The helper `recurse` of Python `find`: equal stops, smaller goes left,
otherwise right. -/
def Tree.findItem : Tree α → α → Option α
  | .leaf, _ => none
  | .node l x r, item =>
    if item = x then some x
    else if item < x then l.findItem item
    else r.findItem item

/-- Python `find`. -/
def find (b : LinkedBST α) (item : α) : Option α := b.root.findItem item

/-- Python `__contains__`: `find(item) is not None`. -/
def contains (b : LinkedBST α) (item : α) : Bool := (find b item).isSome

/-- Python `clear`: `_root = None; _size = 0`. -/
def clear (_b : LinkedBST α) : LinkedBST α := ⟨.leaf, 0⟩

/-- Python `height`'s helper `height1`: `-1` for `None`, otherwise
`1 + max` of the children's heights. -/
def Tree.height : Tree α → Int
  | .leaf => -1
  | .node l _ r => 1 + max l.height r.height

/-- Python `is_balanced`: `height() <= ceil(log2(size + 1) - 1)`.  For a
positive integer `n + 1` the real number `ceil(log2 (n + 1))` equals
`Nat.clog 2 (n + 1)`, and `ceil(log2 (n+1) - 1) = ceil(log2 (n+1)) - 1`. -/
def is_balanced (b : LinkedBST α) : Bool :=
  decide (b.root.height ≤ (Nat.clog 2 (b.size + 1) : Int) - 1)

/-- The loop of the helper `lift_max_in_left_subtree_to_top` of `remove`:
on the nonempty tree `node l x r` it walks the right spine to the maximum
node, removes that node (replacing it by its left child) and returns the
removed node's datum together with the remaining tree. -/
def removeMax (l : Tree α) (x : α) (r : Tree α) : α × Tree α :=
  match r with
  | .leaf => (x, l)
  | .node rl rx rr =>
    let p := removeMax rl rx rr
    (p.1, .node l x p.2)

/-- The case analysis of `remove` once the target node `node l x r` is
found: with two children, lift the maximum of the left subtree to the top
(`lift_max_in_left_subtree_to_top`); with at most one child, the parent is
re-linked directly to the sole child (or `None`). -/
def deleteNode (l : Tree α) (_x : α) (r : Tree α) : Tree α :=
  match l, r with
  | .node ll lx lr, .node _ _ _ =>
    let p := removeMax ll lx lr
    .node p.2 p.1 r
  | .leaf, _ => r
  | _, .leaf => l

/-- The search loop of `remove` (rendered recursively; the sentinel
`pre_root` node plus parent/direction bookkeeping of the source is exactly
the positional rebuilding done here): locate the node whose `data == item`,
remove it with `deleteNode`, and return the removed datum with the new
root.  Returns `none` when the item is absent. -/
def deleteTree : Tree α → α → Option (α × Tree α)
  | .leaf, _ => none
  | .node l x r, item =>
    if x = item then some (x, deleteNode l x r)
    else if x > item then
      match deleteTree l item with
      | none => none
      | some p => some (p.1, .node p.2 x r)
    else
      match deleteTree r item with
      | none => none
      | some p => some (p.1, .node l x p.2)

/-- Python `remove`.  The first component is the outcome (`error` models
the `KeyError` raise, `ok` the returned value); the second is the state of
the tree afterwards.  Mirrors the source: the membership pre-check, the
dead `isEmpty` early return, the search-and-unlink, the decrement of
`_size`, and the final root reset (`None` when the collection became
empty, otherwise the sentinel's left link). -/
def remove (b : LinkedBST α) (item : α) : Except Unit (Option α) × LinkedBST α :=
  if contains b item = false then (.error (), b)
  else if b.size = 0 then (.ok none, b)
  else
    match deleteTree b.root item with
    | none => (.ok none, b)
    | some p =>
      (.ok (some p.1), ⟨if b.size - 1 = 0 then .leaf else p.2, b.size - 1⟩)

/-- Python `range_find` for integer items: materialize the in-order list
and keep every `item` with `item in range(low, high + 1)`, which for an
`int` item means `low ≤ item ≤ high`. -/
def range_find (b : LinkedBST Int) (low high : Int) : List Int :=
  b.root.inorder.filter (fun item => decide (low ≤ item ∧ item ≤ high))

/-- Python `range_find` run on a tree of rational items (the source is
duck-typed, so nothing restricts items to `int`): `item in range(low,
high + 1)` compares `item` with each integer of the range using `==`, so a
non-integer rational never matches; an integral rational matches exactly
when its value lies between `low` and `high`. -/
def range_find_rat (b : LinkedBST Rat) (low high : Int) : List Rat :=
  b.root.inorder.filter
    (fun item => decide (item.den = 1 ∧ low ≤ item.num ∧ item.num ≤ high))

/-- The helper `recurse` of Python `rebalance`: on a nonempty list slice,
`add` the middle element (`lst[len(lst)//2]`), then recurse on the left
slice `lst[:mid]`, then on the right slice `lst[mid+1:]`. -/
def rebuild : List α → LinkedBST α → LinkedBST α
  | [], b => b
  | x :: xs, b =>
    let m := (x :: xs).length / 2
    let b1 := add b ((x :: xs).get ⟨m, Nat.div_lt_self (Nat.succ_pos xs.length) Nat.one_lt_two⟩)
    rebuild ((x :: xs).drop (m + 1)) (rebuild ((x :: xs).take m) b1)
termination_by l _ => l.length
decreasing_by
  all_goals simp [List.length_take, List.length_drop]
  all_goals omega

/-- Python `rebalance`: capture the in-order list, `clear`, and re-`add`
by recursive middles. -/
def rebalance (b : LinkedBST α) : LinkedBST α :=
  rebuild b.root.inorder (clear b)

/-- The second loop of Python `successor`: starting at a node whose datum
exceeds `item`, descend left; `old` is the previously remembered datum
(`old_root`).  Returns `old` on meeting a datum below `item`, and the
current datum on falling off the left. -/
def succSearch (item : α) : Tree α → α → α
  | .leaf, old => old
  | .node l x _, old =>
    if item > x then old
    else
      match l with
      | .leaf => x
      | .node ll lx lr => succSearch item (.node ll lx lr) x

/-- The first loop of Python `successor`: from a node, walk right while the
datum is `≤ item`; `None` when the walk falls off the tree, otherwise enter
the second loop at the first datum `> item` with that datum remembered. -/
def succDescend (item : α) : Tree α → Option α
  | .leaf => none
  | .node l x r =>
    if item ≥ x then
      match r with
      | .leaf => none
      | .node rl rx rr => succDescend item (.node rl rx rr)
    else some (succSearch item (.node l x r) x)

/-- Python `successor`.  On an empty tree the very first statement reads
`root.data` from `None` and raises `AttributeError`; this is the `error`
outcome. -/
def successor (b : LinkedBST α) (item : α) : Except Unit (Option α) :=
  match b.root with
  | .leaf => .error ()
  | .node l x r => .ok (succDescend item (.node l x r))

/-- The descent loop of Python `predecessor`: items strictly below `item`
met on the path are appended to `predecessors`; strictly-smaller probes go
left, strictly-greater go right, equal goes left; the loop breaks on a
missing child. -/
def predDescend (item : α) : Tree α → List α → List α
  | .leaf, acc => acc
  | .node l x r, acc =>
    if item < x then
      match l with
      | .leaf => acc
      | .node ll lx lr => predDescend item (.node ll lx lr) acc
    else if item > x then
      match r with
      | .leaf => acc ++ [x]
      | .node rl rx rr => predDescend item (.node rl rx rr) (acc ++ [x])
    else
      match l with
      | .leaf => acc
      | .node ll lx lr => predDescend item (.node ll lx lr) acc

/-- Python `max` over a list: `none` on the empty list. -/
def pythonMax : List α → Option α
  | [] => none
  | x :: xs => some (xs.foldl max x)

/-- Python `predecessor`: collect the strictly-smaller items seen on the
descent and return their maximum, or `None` when none were seen.  On an
empty tree the first loop iteration reads `root.data` from `None` and
raises `AttributeError`; this is the `error` outcome. -/
def predecessor (b : LinkedBST α) (item : α) : Except Unit (Option α) :=
  match b.root with
  | .leaf => .error ()
  | .node l x r => .ok (pythonMax (predDescend item (.node l x r) []))

/-- A tree built by folding `add` over a list, starting from the freshly
constructed empty `LinkedBST` (this is what `LinkedBST(sourceCollection)`
does). -/
def buildBST (l : List α) : LinkedBST α := l.foldl add ⟨.leaf, 0⟩

/-- The binary-search-tree order invariant maintained by the operations:
at every node, items of the left subtree are `≤` the datum and items of
the right subtree are `≥` the datum. -/
def Tree.ordered : Tree α → Prop
  | .leaf => True
  | .node l x r =>
    (∀ y ∈ l.inorder, y ≤ x) ∧ (∀ y ∈ r.inorder, x ≤ y) ∧ l.ordered ∧ r.ordered

instance Tree.orderedDec : (t : Tree α) → Decidable t.ordered
  | .leaf => .isTrue trivial
  | .node l x r =>
    letI : Decidable l.ordered := Tree.orderedDec l
    letI : Decidable r.ordered := Tree.orderedDec r
    decidable_of_iff
      ((∀ y ∈ l.inorder, y ≤ x) ∧ (∀ y ∈ r.inorder, x ≤ y) ∧ l.ordered ∧ r.ordered)
      (by simp [Tree.ordered])

/-- A right spine: no node has a left child (the shape produced by
inserting a nondecreasing sequence). -/
def Tree.rightSpine : Tree α → Bool
  | .leaf => true
  | .node l _ r =>
    match l with
    | .leaf => r.rightSpine
    | .node _ _ _ => false

/-- The representation invariant of a `LinkedBST` state: the BST order
invariant, and agreement of the `_size` counter with the node count. -/
def Inv (b : LinkedBST α) : Prop := b.root.ordered ∧ b.size = b.root.count

/-- States reachable from a freshly constructed empty tree through the
mutating operations `add`, `remove`, `clear` and `rebalance`. -/
inductive Reachable : LinkedBST α → Prop where
  | empty : Reachable ⟨.leaf, 0⟩
  | add (b : LinkedBST α) (x : α) : Reachable b → Reachable (add b x)
  | remove (b : LinkedBST α) (x : α) : Reachable b → Reachable (remove b x).2
  | clear (b : LinkedBST α) : Reachable b → Reachable (clear b)
  | rebalance (b : LinkedBST α) : Reachable b → Reachable (rebalance b)

/-! Basic structural lemmas. -/

@[simp] theorem Tree.inorder_leaf : (Tree.leaf : Tree α).inorder = [] := rfl

@[simp] theorem Tree.inorder_node (l : Tree α) (x : α) (r : Tree α) :
    (Tree.node l x r).inorder = l.inorder ++ x :: r.inorder := rfl

theorem Tree.count_eq_length (t : Tree α) : t.count = t.inorder.length := by
  induction t with
  | leaf => rfl
  | node l x r ihl ihr =>
    simp only [Tree.count, Tree.inorder_node, List.length_append, List.length_cons, ihl, ihr]
    omega

theorem Tree.inorder_eq_nil_iff (t : Tree α) : t.inorder = [] ↔ t = .leaf := by
  cases t <;> simp [Tree.inorder]

@[simp] theorem Tree.ordered_leaf : (Tree.leaf : Tree α).ordered := trivial

theorem Tree.ordered_node {l : Tree α} {x : α} {r : Tree α} :
    (Tree.node l x r).ordered ↔
      (∀ y ∈ l.inorder, y ≤ x) ∧ (∀ y ∈ r.inorder, x ≤ y) ∧ l.ordered ∧ r.ordered :=
  Iff.rfl

theorem Tree.ordered_sorted {t : Tree α} (h : t.ordered) : t.inorder.Sorted (· ≤ ·) := by
  induction t with
  | leaf => simp
  | node l x r ihl ihr =>
    rcases h with ⟨hl, hr, hol, hor⟩
    simp only [Tree.inorder_node, List.Sorted, List.pairwise_append, List.pairwise_cons]
    refine ⟨ihl hol, ⟨hr, ihr hor⟩, ?_⟩
    intro a ha b hb
    rcases List.mem_cons.1 hb with rfl | hb
    · exact hl a ha
    · exact le_trans (hl a ha) (hr b hb)

/-! Lemmas about insertion. -/

theorem Tree.insertItem_perm (t : Tree α) (x : α) :
    (t.insertItem x).inorder.Perm (x :: t.inorder) := by
  induction t with
  | leaf => simp [Tree.insertItem]
  | node l d r ihl ihr =>
    by_cases h : x < d
    · simp only [Tree.insertItem, if_pos h, Tree.inorder_node]
      exact ihl.append_right _
    · simp only [Tree.insertItem, if_neg h, Tree.inorder_node]
      have h1 : List.Perm (l.inorder ++ d :: (r.insertItem x).inorder)
          (l.inorder ++ d :: x :: r.inorder) :=
        List.Perm.append_left _ (List.Perm.cons _ ihr)
      have h3 := @List.perm_middle α x (l.inorder ++ [d]) r.inorder
      refine h1.trans ?_
      simpa using h3

theorem Tree.mem_insertItem {t : Tree α} {x y : α} :
    y ∈ (t.insertItem x).inorder ↔ y = x ∨ y ∈ t.inorder := by
  rw [(t.insertItem_perm x).mem_iff]; simp

theorem Tree.insertItem_ordered {t : Tree α} {x : α} (h : t.ordered) :
    (t.insertItem x).ordered := by
  induction t with
  | leaf => simp [Tree.insertItem, Tree.ordered]
  | node l d r ihl ihr =>
    rcases h with ⟨hl, hr, hol, hor⟩
    by_cases hx : x < d
    · simp only [Tree.insertItem, if_pos hx, Tree.ordered_node]
      refine ⟨?_, hr, ihl hol, hor⟩
      intro y hy
      rcases Tree.mem_insertItem.1 hy with rfl | hy
      · exact le_of_lt hx
      · exact hl y hy
    · simp only [Tree.insertItem, if_neg hx, Tree.ordered_node]
      refine ⟨hl, ?_, hol, ihr hor⟩
      intro y hy
      rcases Tree.mem_insertItem.1 hy with rfl | hy
      · exact le_of_not_lt hx
      · exact hr y hy

theorem Tree.insertItem_inorder_coe (t : Tree α) (x : α) :
    (((t.insertItem x).inorder : List α) : Multiset α) = x ::ₘ (t.inorder : Multiset α) := by
  rw [Multiset.cons_coe]
  exact Multiset.coe_eq_coe.2 (t.insertItem_perm x)

/-! Lemmas about search. -/

theorem Tree.findItem_eq_some {t : Tree α} {item v : α}
    (h : t.findItem item = some v) : v = item ∧ item ∈ t.inorder := by
  induction t with
  | leaf => simp [Tree.findItem] at h
  | node l d r ihl ihr =>
    simp only [Tree.findItem] at h
    by_cases he : item = d
    · rw [if_pos he] at h
      cases h
      exact ⟨he.symm, by simp [he]⟩
    · rw [if_neg he] at h
      by_cases hlt : item < d
      · rw [if_pos hlt] at h
        rcases ihl h with ⟨rfl, hm⟩
        exact ⟨rfl, by simp [hm]⟩
      · rw [if_neg hlt] at h
        rcases ihr h with ⟨rfl, hm⟩
        exact ⟨rfl, by simp [hm]⟩

theorem Tree.findItem_isSome_of_mem {t : Tree α} {item : α} (ho : t.ordered)
    (hm : item ∈ t.inorder) : (t.findItem item).isSome = true := by
  induction t with
  | leaf => simp at hm
  | node l d r ihl ihr =>
    rcases ho with ⟨hl, hr, hol, hor⟩
    by_cases he : item = d
    · simp [Tree.findItem, he]
    · simp only [Tree.inorder_node, List.mem_append, List.mem_cons] at hm
      rcases hm with hm | rfl | hm
      · have hlt : item < d := lt_of_le_of_ne (hl item hm) he
        simpa [Tree.findItem, he, hlt] using ihl hol hm
      · exact absurd rfl he
      · have hge : ¬ item < d := not_lt.2 (hr item hm)
        simpa [Tree.findItem, he, hge] using ihr hor hm

theorem contains_iff {b : LinkedBST α} {item : α} (ho : b.root.ordered) :
    contains b item = true ↔ item ∈ b.root.inorder := by
  constructor
  · intro h
    rcases Option.isSome_iff_exists.1 h with ⟨v, hv⟩
    exact (Tree.findItem_eq_some hv).2
  · intro h
    exact Tree.findItem_isSome_of_mem ho h

/-! Lemmas about removal. -/

theorem removeMax_inorder (l : Tree α) (x : α) (r : Tree α) :
    (Tree.node l x r).inorder = (removeMax l x r).2.inorder ++ [(removeMax l x r).1] := by
  induction r generalizing l x with
  | leaf => simp [removeMax]
  | node rl rx rr ih1 ih2 =>
    have h2 := ih2 rl rx
    simp only [removeMax, Tree.inorder_node] at h2 ⊢
    rw [h2]
    simp

theorem removeMax_mem (l : Tree α) (x : α) (r : Tree α) :
    (removeMax l x r).1 ∈ (Tree.node l x r).inorder := by
  rw [removeMax_inorder]
  simp

theorem removeMax_sub {l : Tree α} {x : α} {r : Tree α} {y : α}
    (h : y ∈ (removeMax l x r).2.inorder) : y ∈ (Tree.node l x r).inorder := by
  rw [removeMax_inorder]
  simp [h]

theorem removeMax_ordered {l : Tree α} {x : α} {r : Tree α}
    (h : (Tree.node l x r).ordered) : (removeMax l x r).2.ordered := by
  induction r generalizing l x with
  | leaf => simpa [removeMax] using h.2.2.1
  | node rl rx rr ih1 ih2 =>
    rcases h with ⟨hl, hr, hol, hor⟩
    simp only [removeMax]
    refine Tree.ordered_node.2 ⟨hl, ?_, hol, ih2 hor⟩
    intro y hy
    exact hr y (removeMax_sub hy)

theorem removeMax_le {l : Tree α} {x : α} {r : Tree α}
    (h : (Tree.node l x r).ordered) :
    ∀ y ∈ (removeMax l x r).2.inorder, y ≤ (removeMax l x r).1 := by
  have hs := Tree.ordered_sorted h
  rw [removeMax_inorder] at hs
  intro y hy
  exact (List.pairwise_append.1 hs).2.2 y hy (removeMax l x r).1 (by simp)

theorem deleteNode_perm (l : Tree α) (x : α) (r : Tree α) :
    (Tree.node l x r).inorder.Perm (x :: (deleteNode l x r).inorder) := by
  match l, r with
  | .leaf, r => simp [deleteNode]
  | .node ll lx lr, .leaf =>
    simp only [deleteNode, Tree.inorder_node, Tree.inorder_leaf, List.append_nil]
    exact List.perm_append_singleton _ _
  | .node ll lx lr, .node rl rx rr =>
    rw [show deleteNode (.node ll lx lr) x (.node rl rx rr) =
      .node (removeMax ll lx lr).2 (removeMax ll lx lr).1 (.node rl rx rr) from rfl]
    rw [show (Tree.node (Tree.node ll lx lr) x (Tree.node rl rx rr)).inorder =
      (Tree.node ll lx lr).inorder ++ x :: (Tree.node rl rx rr).inorder from rfl]
    rw [removeMax_inorder ll lx lr]
    have h3 := @List.perm_middle α x
      ((removeMax ll lx lr).2.inorder ++ [(removeMax ll lx lr).1])
      (Tree.node rl rx rr).inorder
    simpa using h3

theorem deleteNode_ordered {l : Tree α} {x : α} {r : Tree α}
    (h : (Tree.node l x r).ordered) : (deleteNode l x r).ordered := by
  match l, r with
  | .leaf, r =>
    simpa [deleteNode] using h.2.2.2
  | .node ll lx lr, .leaf =>
    simpa [deleteNode] using h.2.2.1
  | .node ll lx lr, .node rl rx rr =>
    rcases h with ⟨hl, hr, hol, hor⟩
    simp only [deleteNode]
    refine Tree.ordered_node.2 ⟨removeMax_le hol, ?_, removeMax_ordered hol, hor⟩
    intro y hy
    exact le_trans (hl _ (removeMax_mem ll lx lr)) (hr y hy)

theorem deleteTree_eq_some {t : Tree α} {item : α} {p : α × Tree α}
    (h : deleteTree t item = some p) :
    p.1 = item ∧ t.inorder.Perm (item :: p.2.inorder) := by
  induction t generalizing p with
  | leaf => simp [deleteTree] at h
  | node l x r ihl ihr =>
    simp only [deleteTree] at h
    by_cases he : x = item
    · rw [if_pos he] at h
      cases h
      subst he
      exact ⟨rfl, deleteNode_perm l x r⟩
    · rw [if_neg he] at h
      by_cases hgt : x > item
      · rw [if_pos hgt] at h
        cases hq : deleteTree l item with
        | none => rw [hq] at h; exact absurd h (by simp)
        | some q =>
          rw [hq] at h
          cases h
          rcases ihl hq with ⟨h1, h2⟩
          refine ⟨h1, ?_⟩
          simpa using h2.append_right (x :: r.inorder)
      · rw [if_neg hgt] at h
        cases hq : deleteTree r item with
        | none => rw [hq] at h; exact absurd h (by simp)
        | some q =>
          rw [hq] at h
          cases h
          rcases ihr hq with ⟨h1, h2⟩
          refine ⟨h1, ?_⟩
          have step1 : List.Perm (l.inorder ++ x :: r.inorder)
              (l.inorder ++ x :: item :: q.2.inorder) :=
            List.Perm.append_left _ (List.Perm.cons _ h2)
          have step2 := @List.perm_middle α item (l.inorder ++ [x]) q.2.inorder
          simp only [Tree.inorder_node]
          refine step1.trans ?_
          simpa using step2

theorem deleteTree_ordered {t : Tree α} {item : α} {p : α × Tree α}
    (ho : t.ordered) (h : deleteTree t item = some p) : p.2.ordered := by
  induction t generalizing p with
  | leaf => simp [deleteTree] at h
  | node l x r ihl ihr =>
    rcases ho with ⟨hl, hr, hol, hor⟩
    simp only [deleteTree] at h
    by_cases he : x = item
    · rw [if_pos he] at h
      cases h
      exact deleteNode_ordered ⟨hl, hr, hol, hor⟩
    · rw [if_neg he] at h
      by_cases hgt : x > item
      · rw [if_pos hgt] at h
        cases hq : deleteTree l item with
        | none => rw [hq] at h; exact absurd h (by simp)
        | some q =>
          rw [hq] at h
          cases h
          refine Tree.ordered_node.2 ⟨?_, hr, ihl hol hq, hor⟩
          intro y hy
          have : y ∈ l.inorder := ((deleteTree_eq_some hq).2.mem_iff).2 (by simp [hy])
          exact hl y this
      · rw [if_neg hgt] at h
        cases hq : deleteTree r item with
        | none => rw [hq] at h; exact absurd h (by simp)
        | some q =>
          rw [hq] at h
          cases h
          refine Tree.ordered_node.2 ⟨hl, ?_, hol, ihr hor hq⟩
          intro y hy
          have : y ∈ r.inorder := ((deleteTree_eq_some hq).2.mem_iff).2 (by simp [hy])
          exact hr y this

theorem deleteTree_isSome_of_mem {t : Tree α} {item : α} (ho : t.ordered)
    (hm : item ∈ t.inorder) : (deleteTree t item).isSome = true := by
  induction t with
  | leaf => simp at hm
  | node l x r ihl ihr =>
    rcases ho with ⟨hl, hr, hol, hor⟩
    simp only [deleteTree]
    by_cases he : x = item
    · rw [if_pos he]
      rfl
    · rw [if_neg he]
      simp only [Tree.inorder_node, List.mem_append, List.mem_cons] at hm
      by_cases hgt : x > item
      · rw [if_pos hgt]
        have hml : item ∈ l.inorder := by
          rcases hm with hm | rfl | hm
          · exact hm
          · exact absurd rfl he
          · exact absurd (hr item hm) (not_le.2 hgt)
        rcases Option.isSome_iff_exists.1 (ihl hol hml) with ⟨q, hq⟩
        rw [hq]
        rfl
      · rw [if_neg hgt]
        have hmr : item ∈ r.inorder := by
          rcases hm with hm | rfl | hm
          · have h1 : item ≤ x := hl item hm
            have h2 : ¬ item < x := hgt
            exact absurd (lt_of_le_of_ne h1 (fun hcon => he hcon.symm)) h2
          · exact absurd rfl he
          · exact hm
        rcases Option.isSome_iff_exists.1 (ihr hor hmr) with ⟨q, hq⟩
        rw [hq]
        rfl

/-! State-level lemmas about `add`, `remove` and `clear`. -/

theorem add_size (b : LinkedBST α) (x : α) : (add b x).size = b.size + 1 := by
  unfold add
  split <;> rfl

theorem root_eq_leaf_of_count {b : LinkedBST α} (h : b.size = b.root.count)
    (h0 : b.size = 0) : b.root = .leaf := by
  rw [← Tree.inorder_eq_nil_iff, ← List.length_eq_zero]
  rw [← Tree.count_eq_length]
  omega

theorem add_root {b : LinkedBST α} (h : b.size = b.root.count) (x : α) :
    (add b x).root = b.root.insertItem x := by
  unfold add
  split
  · next h0 =>
    rw [root_eq_leaf_of_count h h0]
    rfl
  · rfl

theorem add_inorder_perm {b : LinkedBST α} (h : b.size = b.root.count) (x : α) :
    (add b x).root.inorder.Perm (x :: b.root.inorder) := by
  rw [add_root h]
  exact Tree.insertItem_perm _ _

theorem add_inv {b : LinkedBST α} (h : Inv b) (x : α) : Inv (add b x) := by
  rcases h with ⟨ho, hs⟩
  constructor
  · rw [add_root hs]
    exact Tree.insertItem_ordered ho
  · rw [add_size, Tree.count_eq_length, (add_inorder_perm hs x).length_eq]
    rw [hs, Tree.count_eq_length]
    rfl

theorem clear_inv (b : LinkedBST α) : Inv (clear b) := ⟨trivial, rfl⟩

theorem contains_false_of_not_mem {b : LinkedBST α} {item : α} (ho : b.root.ordered)
    (h : item ∉ b.root.inorder) : contains b item = false := by
  cases hc : contains b item with
  | false => rfl
  | true => exact absurd ((contains_iff ho).1 hc) h

theorem remove_of_not_mem {b : LinkedBST α} {item : α} (ho : b.root.ordered)
    (h : item ∉ b.root.inorder) : remove b item = (.error (), b) := by
  unfold remove
  rw [contains_false_of_not_mem ho h]
  simp

theorem size_pos_of_mem {b : LinkedBST α} {item : α} (hs : b.size = b.root.count)
    (h : item ∈ b.root.inorder) : b.size ≠ 0 := by
  intro h0
  rw [root_eq_leaf_of_count hs h0] at h
  simp at h

theorem remove_of_mem {b : LinkedBST α} {item : α} (hInv : Inv b)
    (h : item ∈ b.root.inorder) :
    ∃ t, deleteTree b.root item = some (item, t) ∧
      remove b item = (.ok (some item), ⟨if b.size - 1 = 0 then .leaf else t, b.size - 1⟩) := by
  rcases hInv with ⟨ho, hs⟩
  rcases Option.isSome_iff_exists.1 (deleteTree_isSome_of_mem ho h) with ⟨p, hp⟩
  have h1 : p.1 = item := (deleteTree_eq_some hp).1
  refine ⟨p.2, ?_, ?_⟩
  · rw [hp, ← h1]
  · unfold remove
    rw [show contains b item = true from (contains_iff ho).2 h]
    rw [if_neg (by simp)]
    rw [if_neg (size_pos_of_mem hs h)]
    rw [hp]
    simp [h1]

theorem remove_perm {b : LinkedBST α} {item : α} (hInv : Inv b)
    (h : item ∈ b.root.inorder) :
    b.root.inorder.Perm (item :: (remove b item).2.root.inorder) := by
  rcases remove_of_mem hInv h with ⟨t, hdel, heq⟩
  have hperm := (deleteTree_eq_some hdel).2
  rw [heq]
  by_cases h0 : b.size - 1 = 0
  · rw [if_pos h0]
    have hs := hInv.2
    have hcount : b.root.count = 1 + t.inorder.length := by
      rw [Tree.count_eq_length, hperm.length_eq]
      simp
      omega
    have hsz : b.size ≠ 0 := size_pos_of_mem hInv.2 h
    have ht : t.inorder.length = 0 := by omega
    have : t.inorder = [] := List.length_eq_zero.1 ht
    rw [this] at hperm
    simpa using hperm
  · rw [if_neg h0]
    exact hperm

theorem remove_inv {b : LinkedBST α} (hInv : Inv b) (item : α) :
    Inv (remove b item).2 := by
  by_cases h : item ∈ b.root.inorder
  · rcases remove_of_mem hInv h with ⟨t, hdel, heq⟩
    have hperm := (deleteTree_eq_some hdel).2
    have hcount : b.root.count = 1 + t.count := by
      rw [Tree.count_eq_length, Tree.count_eq_length, hperm.length_eq]
      simp
      omega
    rw [heq]
    by_cases h0 : b.size - 1 = 0
    · rw [if_pos h0]
      exact ⟨trivial, h0⟩
    · rw [if_neg h0]
      refine ⟨deleteTree_ordered hInv.1 hdel, ?_⟩
      have hs := hInv.2
      simp only
      omega
  · rw [remove_of_not_mem hInv.1 h]
    exact hInv

/-! A fuel-indexed restatement of `rebuild` on the underlying tree.  The
fuel is a structural-termination device only: whenever the fuel is at least
the length of the list (in particular at fuel `l.length`, the value the
bridge lemma uses), its value agrees with `rebuild`. -/

def rebuildT : Nat → List α → Tree α → Tree α
  | 0, _, t => t
  | _ + 1, [], t => t
  | fuel + 1, x :: xs, t =>
    rebuildT fuel ((x :: xs).drop ((x :: xs).length / 2 + 1))
      (rebuildT fuel ((x :: xs).take ((x :: xs).length / 2))
        (t.insertItem ((x :: xs).get
          ⟨(x :: xs).length / 2, Nat.div_lt_self (Nat.succ_pos xs.length) Nat.one_lt_two⟩)))

theorem rebuild_nil (b : LinkedBST α) : rebuild [] b = b := by
  rw [rebuild]

theorem rebuild_cons (x : α) (xs : List α) (b : LinkedBST α) :
    rebuild (x :: xs) b =
      rebuild ((x :: xs).drop ((x :: xs).length / 2 + 1))
        (rebuild ((x :: xs).take ((x :: xs).length / 2))
          (add b ((x :: xs).get
            ⟨(x :: xs).length / 2, Nat.div_lt_self (Nat.succ_pos xs.length) Nat.one_lt_two⟩))) := by
  rw [rebuild]

theorem rebuild_eq_rebuildT :
    ∀ (fuel : Nat) (l : List α) (b : LinkedBST α), l.length ≤ fuel → Inv b →
      rebuild l b = ⟨rebuildT fuel l b.root, b.size + l.length⟩ ∧ Inv (rebuild l b) := by
  intro fuel
  induction fuel with
  | zero =>
    intro l b hl hb
    have h0 : l = [] := List.length_eq_zero.1 (Nat.le_zero.1 hl)
    subst h0
    rw [rebuild_nil]
    exact ⟨rfl, hb⟩
  | succ fuel ih =>
    intro l b hl hb
    match l with
    | [] =>
      rw [rebuild_nil]
      exact ⟨rfl, hb⟩
    | x :: xs =>
      rw [rebuild_cons]
      have hm : (x :: xs).length / 2 < (x :: xs).length :=
        Nat.div_lt_self (Nat.succ_pos xs.length) Nat.one_lt_two
      have htlen : ((x :: xs).take ((x :: xs).length / 2)).length ≤ fuel := by
        simp only [List.length_take, List.length_cons] at *
        omega
      have hdlen : ((x :: xs).drop ((x :: xs).length / 2 + 1)).length ≤ fuel := by
        simp only [List.length_drop, List.length_cons] at *
        omega
      have hb1 : Inv (add b ((x :: xs).get ⟨(x :: xs).length / 2, hm⟩)) := add_inv hb _
      have h1 := ih _ _ htlen hb1
      have h2 := ih _ _ hdlen h1.2
      refine ⟨?_, h2.2⟩
      rw [h2.1, h1.1]
      rw [add_root hb.2, add_size]
      have hlen : b.size + 1 + ((x :: xs).take ((x :: xs).length / 2)).length
          + ((x :: xs).drop ((x :: xs).length / 2 + 1)).length = b.size + (x :: xs).length := by
        simp only [List.length_take, List.length_drop, List.length_cons] at *
        omega
      rw [show rebuildT (fuel + 1) (x :: xs) b.root =
        rebuildT fuel ((x :: xs).drop ((x :: xs).length / 2 + 1))
          (rebuildT fuel ((x :: xs).take ((x :: xs).length / 2))
            (b.root.insertItem ((x :: xs).get ⟨(x :: xs).length / 2, hm⟩))) from rfl]
      simp only [LinkedBST.mk.injEq]
      exact ⟨by first | rfl | trivial, hlen⟩

theorem rebuildT_inorder_coe :
    ∀ (fuel : Nat) (l : List α) (t : Tree α), l.length ≤ fuel →
      (((rebuildT fuel l t).inorder : List α) : Multiset α) = ↑l + ↑t.inorder := by
  intro fuel
  induction fuel with
  | zero =>
    intro l t hl
    have h0 : l = [] := List.length_eq_zero.1 (Nat.le_zero.1 hl)
    subst h0
    simp [rebuildT]
  | succ fuel ih =>
    intro l t hl
    match l with
    | [] => simp [rebuildT]
    | x :: xs =>
      have hm : (x :: xs).length / 2 < (x :: xs).length :=
        Nat.div_lt_self (Nat.succ_pos xs.length) Nat.one_lt_two
      have htlen : ((x :: xs).take ((x :: xs).length / 2)).length ≤ fuel := by
        simp only [List.length_take, List.length_cons] at *
        omega
      have hdlen : ((x :: xs).drop ((x :: xs).length / 2 + 1)).length ≤ fuel := by
        simp only [List.length_drop, List.length_cons] at *
        omega
      rw [show rebuildT (fuel + 1) (x :: xs) t =
        rebuildT fuel ((x :: xs).drop ((x :: xs).length / 2 + 1))
          (rebuildT fuel ((x :: xs).take ((x :: xs).length / 2))
            (t.insertItem ((x :: xs).get ⟨(x :: xs).length / 2, hm⟩))) from rfl]
      rw [ih _ _ hdlen, ih _ _ htlen, Tree.insertItem_inorder_coe]
      have hdec : (x :: xs) = (x :: xs).take ((x :: xs).length / 2)
          ++ (x :: xs).get ⟨(x :: xs).length / 2, hm⟩ :: (x :: xs).drop ((x :: xs).length / 2 + 1) := by
        conv_lhs => rw [← List.take_append_drop ((x :: xs).length / 2) (x :: xs)]
        rw [List.drop_eq_getElem_cons hm]
        rw [List.get_eq_getElem]
      conv_rhs => rw [hdec]
      simp only [Multiset.cons_coe, Multiset.coe_add, Multiset.coe_eq_coe]
      generalize (x :: xs).get ⟨(x :: xs).length / 2, hm⟩ = g
      generalize (x :: xs).take ((x :: xs).length / 2) = A
      generalize (x :: xs).drop ((x :: xs).length / 2 + 1) = D
      generalize t.inorder = T
      refine ((List.Perm.append_left D (@List.perm_middle α g A T)).trans
        (@List.perm_middle α g D (A ++ T))).trans ?_
      refine List.Perm.trans ?_ ((List.Perm.append_right T (@List.perm_middle α g A D)).symm)
      refine List.Perm.cons g ?_
      rw [← List.append_assoc]
      exact List.perm_append_comm.append_right _

theorem rebuildT_ordered :
    ∀ (fuel : Nat) (l : List α) (t : Tree α), t.ordered → (rebuildT fuel l t).ordered := by
  intro fuel
  induction fuel with
  | zero => intro l t ht; exact ht
  | succ fuel ih =>
    intro l t ht
    match l with
    | [] => exact ht
    | x :: xs => exact ih _ _ (ih _ _ (Tree.insertItem_ordered ht))

theorem rebalance_eq (b : LinkedBST α) :
    rebalance b = ⟨rebuildT b.root.inorder.length b.root.inorder .leaf, b.root.inorder.length⟩ := by
  unfold rebalance clear
  have h := rebuild_eq_rebuildT b.root.inorder.length b.root.inorder ⟨.leaf, 0⟩ le_rfl ⟨trivial, rfl⟩
  rw [h.1]
  simp

theorem rebalance_inv (b : LinkedBST α) : Inv (rebalance b) := by
  unfold rebalance clear
  exact (rebuild_eq_rebuildT b.root.inorder.length b.root.inorder ⟨.leaf, 0⟩ le_rfl ⟨trivial, rfl⟩).2

theorem rebalance_coe (b : LinkedBST α) :
    (((rebalance b).root.inorder : List α) : Multiset α) = ↑b.root.inorder := by
  rw [rebalance_eq]
  have h := rebuildT_inorder_coe b.root.inorder.length b.root.inorder .leaf le_rfl
  simpa using h

/-! The representation invariant holds in every reachable state. -/

theorem reachable_inv {b : LinkedBST α} (h : Reachable b) : Inv b := by
  induction h with
  | empty => exact ⟨trivial, rfl⟩
  | add b x _ ih => exact add_inv ih x
  | remove b x _ ih => exact remove_inv ih x
  | clear b _ _ => exact clear_inv b
  | rebalance b _ _ => exact rebalance_inv b

/-! Shape and height of the tree produced by `rebuild` on a strictly
sorted list. -/

theorem rebuildT_node_lt :
    ∀ (fuel : Nat) (l : List α) (L : Tree α) (x : α) (R : Tree α), (∀ y ∈ l, y < x) →
      rebuildT fuel l (.node L x R) = .node (rebuildT fuel l L) x R := by
  intro fuel
  induction fuel with
  | zero => intro l L x R h; rfl
  | succ fuel ih =>
    intro l L x R h
    match l with
    | [] => rfl
    | z :: zs =>
      have hm : (z :: zs).length / 2 < (z :: zs).length :=
        Nat.div_lt_self (Nat.succ_pos zs.length) Nat.one_lt_two
      have hg : (z :: zs).get ⟨(z :: zs).length / 2, hm⟩ < x :=
        h _ (List.get_mem _ _ _)
      rw [show rebuildT (fuel + 1) (z :: zs) (.node L x R) =
        rebuildT fuel ((z :: zs).drop ((z :: zs).length / 2 + 1))
          (rebuildT fuel ((z :: zs).take ((z :: zs).length / 2))
            ((Tree.node L x R).insertItem ((z :: zs).get ⟨(z :: zs).length / 2, hm⟩))) from rfl]
      rw [show (Tree.node L x R).insertItem ((z :: zs).get ⟨(z :: zs).length / 2, hm⟩) =
        .node (L.insertItem ((z :: zs).get ⟨(z :: zs).length / 2, hm⟩)) x R by
          rw [Tree.insertItem, if_pos hg]]
      rw [ih _ _ _ _ (fun y hy => h y (List.take_subset _ _ hy))]
      rw [ih _ _ _ _ (fun y hy => h y (List.drop_subset _ _ hy))]
      rfl

theorem rebuildT_node_ge :
    ∀ (fuel : Nat) (l : List α) (L : Tree α) (x : α) (R : Tree α), (∀ y ∈ l, x ≤ y) →
      rebuildT fuel l (.node L x R) = .node L x (rebuildT fuel l R) := by
  intro fuel
  induction fuel with
  | zero => intro l L x R h; rfl
  | succ fuel ih =>
    intro l L x R h
    match l with
    | [] => rfl
    | z :: zs =>
      have hm : (z :: zs).length / 2 < (z :: zs).length :=
        Nat.div_lt_self (Nat.succ_pos zs.length) Nat.one_lt_two
      have hg : ¬ (z :: zs).get ⟨(z :: zs).length / 2, hm⟩ < x :=
        not_lt.2 (h _ (List.get_mem _ _ _))
      rw [show rebuildT (fuel + 1) (z :: zs) (.node L x R) =
        rebuildT fuel ((z :: zs).drop ((z :: zs).length / 2 + 1))
          (rebuildT fuel ((z :: zs).take ((z :: zs).length / 2))
            ((Tree.node L x R).insertItem ((z :: zs).get ⟨(z :: zs).length / 2, hm⟩))) from rfl]
      rw [show (Tree.node L x R).insertItem ((z :: zs).get ⟨(z :: zs).length / 2, hm⟩) =
        .node L x (R.insertItem ((z :: zs).get ⟨(z :: zs).length / 2, hm⟩)) by
          rw [Tree.insertItem, if_neg hg]]
      rw [ih _ _ _ _ (fun y hy => h y (List.take_subset _ _ hy))]
      rw [ih _ _ _ _ (fun y hy => h y (List.drop_subset _ _ hy))]
      rfl

/-- Evaluation helper for `Nat.clog 2` at concrete arguments. -/
theorem clog2_eq_of (n k : Nat) (h1 : n ≤ 2 ^ k) (h2 : k = 0 ∨ ¬ n ≤ 2 ^ (k - 1)) :
    Nat.clog 2 n = k := by
  have ha : Nat.clog 2 n ≤ k := (Nat.le_pow_iff_clog_le Nat.one_lt_two).1 h1
  rcases h2 with rfl | h2
  · omega
  · have hb : ¬ Nat.clog 2 n ≤ k - 1 :=
      fun h => h2 ((Nat.le_pow_iff_clog_le Nat.one_lt_two).2 h)
    omega

theorem rebuildT_height :
    ∀ (fuel : Nat) (l : List α), l.Pairwise (· < ·) → l.length ≤ fuel →
      (rebuildT fuel l .leaf).height ≤ (Nat.clog 2 (l.length + 1) : Int) - 1 := by
  intro fuel
  induction fuel with
  | zero =>
    intro l hp hl
    have h0 : l = [] := List.length_eq_zero.1 (Nat.le_zero.1 hl)
    subst h0
    simp [rebuildT, Tree.height, Nat.clog_one_right]
  | succ fuel ih =>
    intro l hp hl
    match l with
    | [] => simp [rebuildT, Tree.height, Nat.clog_one_right]
    | x :: xs =>
      have hm : (x :: xs).length / 2 < (x :: xs).length :=
        Nat.div_lt_self (Nat.succ_pos xs.length) Nat.one_lt_two
      have hdec : (x :: xs) = (x :: xs).take ((x :: xs).length / 2)
          ++ (x :: xs).get ⟨(x :: xs).length / 2, hm⟩
            :: (x :: xs).drop ((x :: xs).length / 2 + 1) := by
        conv_lhs => rw [← List.take_append_drop ((x :: xs).length / 2) (x :: xs)]
        rw [List.drop_eq_getElem_cons hm]
        rw [List.get_eq_getElem]
      have hp2 : ((x :: xs).take ((x :: xs).length / 2)
          ++ (x :: xs).get ⟨(x :: xs).length / 2, hm⟩
            :: (x :: xs).drop ((x :: xs).length / 2 + 1)).Pairwise (· < ·) := hdec ▸ hp
      have hlt : ∀ y ∈ (x :: xs).take ((x :: xs).length / 2),
          y < (x :: xs).get ⟨(x :: xs).length / 2, hm⟩ :=
        fun y hy => (List.pairwise_append.1 hp2).2.2 y hy _ (List.mem_cons_self _ _)
      have hge : ∀ y ∈ (x :: xs).drop ((x :: xs).length / 2 + 1),
          (x :: xs).get ⟨(x :: xs).length / 2, hm⟩ ≤ y :=
        fun y hy =>
          le_of_lt ((List.pairwise_cons.1 (List.pairwise_append.1 hp2).2.1).1 y hy)
      rw [show rebuildT (fuel + 1) (x :: xs) (.leaf : Tree α) =
        rebuildT fuel ((x :: xs).drop ((x :: xs).length / 2 + 1))
          (rebuildT fuel ((x :: xs).take ((x :: xs).length / 2))
            ((Tree.leaf).insertItem ((x :: xs).get ⟨(x :: xs).length / 2, hm⟩))) from rfl]
      rw [show (Tree.leaf).insertItem ((x :: xs).get ⟨(x :: xs).length / 2, hm⟩) =
        .node .leaf ((x :: xs).get ⟨(x :: xs).length / 2, hm⟩) .leaf from rfl]
      rw [rebuildT_node_lt fuel _ _ _ _ hlt]
      rw [rebuildT_node_ge fuel _ _ _ _ hge]
      rw [show (Tree.node
          (rebuildT fuel ((x :: xs).take ((x :: xs).length / 2)) .leaf)
          ((x :: xs).get ⟨(x :: xs).length / 2, hm⟩)
          (rebuildT fuel ((x :: xs).drop ((x :: xs).length / 2 + 1)) .leaf)).height =
        1 + max (rebuildT fuel ((x :: xs).take ((x :: xs).length / 2)) .leaf).height
          (rebuildT fuel ((x :: xs).drop ((x :: xs).length / 2 + 1)) .leaf).height from rfl]
      have hpt : ((x :: xs).take ((x :: xs).length / 2)).Pairwise (· < ·) :=
        hp.sublist (List.take_sublist _ _)
      have hpd : ((x :: xs).drop ((x :: xs).length / 2 + 1)).Pairwise (· < ·) :=
        hp.sublist (List.drop_sublist _ _)
      have hlt1 : ((x :: xs).take ((x :: xs).length / 2)).length ≤ fuel := by
        simp only [List.length_take, List.length_cons] at *
        omega
      have hld1 : ((x :: xs).drop ((x :: xs).length / 2 + 1)).length ≤ fuel := by
        simp only [List.length_drop, List.length_cons] at *
        omega
      have hA := ih _ hpt hlt1
      have hB := ih _ hpd hld1
      -- arithmetic on the ceiling logarithm
      have hk1 : 1 ≤ Nat.clog 2 ((x :: xs).length + 1) :=
        Nat.clog_pos Nat.one_lt_two (by simp)
      have hpow : (x :: xs).length + 1 ≤ 2 ^ Nat.clog 2 ((x :: xs).length + 1) :=
        Nat.le_pow_clog Nat.one_lt_two _
      have hsplit : 2 ^ Nat.clog 2 ((x :: xs).length + 1) =
          2 ^ (Nat.clog 2 ((x :: xs).length + 1) - 1) * 2 := by
        rw [← pow_succ]
        congr 1
        omega
      have htb : ((x :: xs).take ((x :: xs).length / 2)).length + 1
          ≤ 2 ^ (Nat.clog 2 ((x :: xs).length + 1) - 1) := by
        simp only [List.length_take, List.length_cons] at *
        omega
      have hdb : ((x :: xs).drop ((x :: xs).length / 2 + 1)).length + 1
          ≤ 2 ^ (Nat.clog 2 ((x :: xs).length + 1) - 1) := by
        simp only [List.length_drop, List.length_cons] at *
        omega
      have hct : Nat.clog 2 (((x :: xs).take ((x :: xs).length / 2)).length + 1)
          ≤ Nat.clog 2 ((x :: xs).length + 1) - 1 :=
        (Nat.le_pow_iff_clog_le Nat.one_lt_two).1 htb
      have hcd : Nat.clog 2 (((x :: xs).drop ((x :: xs).length / 2 + 1)).length + 1)
          ≤ Nat.clog 2 ((x :: xs).length + 1) - 1 :=
        (Nat.le_pow_iff_clog_le Nat.one_lt_two).1 hdb
      have hA2 : (rebuildT fuel ((x :: xs).take ((x :: xs).length / 2)) .leaf).height
          ≤ (Nat.clog 2 ((x :: xs).length + 1) : Int) - 2 := by
        refine hA.trans ?_
        omega
      have hB2 : (rebuildT fuel ((x :: xs).drop ((x :: xs).length / 2 + 1)) .leaf).height
          ≤ (Nat.clog 2 ((x :: xs).length + 1) : Int) - 2 := by
        refine hB.trans ?_
        omega
      have hM := max_le hA2 hB2
      revert hM
      generalize max (rebuildT fuel ((x :: xs).take ((x :: xs).length / 2)) .leaf).height
        (rebuildT fuel ((x :: xs).drop ((x :: xs).length / 2 + 1)) .leaf).height = M
      intro hM
      omega

/-! Lemmas about `predecessor`. -/

theorem foldl_max_mem : ∀ (xs : List α) (x : α), xs.foldl max x ∈ x :: xs := by
  intro xs
  induction xs with
  | nil => intro x; simp
  | cons a as ih =>
    intro x
    have h := ih (max x a)
    rcases List.mem_cons.1 h with h | h
    · rcases max_choice x a with hc | hc
      · rw [show (a :: as).foldl max x = as.foldl max (max x a) from rfl, h, hc]
        simp
      · rw [show (a :: as).foldl max x = as.foldl max (max x a) from rfl, h, hc]
        simp
    · rw [show (a :: as).foldl max x = as.foldl max (max x a) from rfl]
      simp [List.mem_cons.2 (Or.inr h)]

theorem le_foldl_max : ∀ (xs : List α) (x y : α), y ∈ x :: xs → y ≤ xs.foldl max x := by
  intro xs
  induction xs with
  | nil =>
    intro x y hy
    simp at hy
    simp [hy]
  | cons a as ih =>
    intro x y hy
    rw [show (a :: as).foldl max x = as.foldl max (max x a) from rfl]
    rcases List.mem_cons.1 hy with rfl | hy
    · exact le_trans (le_max_left y a) (ih (max y a) _ (List.mem_cons_self _ _))
    · rcases List.mem_cons.1 hy with rfl | hy
      · exact le_trans (le_max_right x y) (ih (max x y) _ (List.mem_cons_self _ _))
      · exact ih (max x a) y (List.mem_cons.2 (Or.inr hy))

theorem pythonMax_nil_iff (l : List α) : pythonMax l = none ↔ l = [] := by
  cases l <;> simp [pythonMax]

theorem pythonMax_spec {l : List α} {v : α} (h : pythonMax l = some v) :
    v ∈ l ∧ ∀ y ∈ l, y ≤ v := by
  match l with
  | [] => simp [pythonMax] at h
  | x :: xs =>
    simp only [pythonMax, Option.some.injEq] at h
    subst h
    exact ⟨foldl_max_mem xs x, fun y hy => le_foldl_max xs x y hy⟩

theorem mem_inorder_left {l : Tree α} {x : α} {r : Tree α} {y : α}
    (h : y ∈ l.inorder) : y ∈ (Tree.node l x r).inorder := by
  simp only [Tree.inorder_node, List.mem_append]
  exact Or.inl h

theorem mem_inorder_right {l : Tree α} {x : α} {r : Tree α} {y : α}
    (h : y ∈ r.inorder) : y ∈ (Tree.node l x r).inorder := by
  simp only [Tree.inorder_node, List.mem_append, List.mem_cons]
  exact Or.inr (Or.inr h)

theorem mem_inorder_self {l : Tree α} {x : α} {r : Tree α} :
    x ∈ (Tree.node l x r).inorder := by
  simp

theorem predDescend_lt_leaf {item x : α} (r : Tree α) (h1 : item < x) (acc : List α) :
    predDescend item (.node .leaf x r) acc = acc := by
  unfold predDescend
  rw [if_pos h1]

theorem predDescend_lt_node {item x : α} (ll : Tree α) (lx : α) (lr r : Tree α)
    (h1 : item < x) (acc : List α) :
    predDescend item (.node (.node ll lx lr) x r) acc =
      predDescend item (.node ll lx lr) acc := by
  conv_lhs => rw [predDescend.eq_def]
  simp only [if_pos h1]

theorem predDescend_gt_leaf {item x : α} (l : Tree α) (h2 : x < item) (acc : List α) :
    predDescend item (.node l x .leaf) acc = acc ++ [x] := by
  unfold predDescend
  rw [if_neg (asymm h2), if_pos h2]

theorem predDescend_gt_node {item x : α} (l : Tree α) (rl : Tree α) (rx : α) (rr : Tree α)
    (h2 : x < item) (acc : List α) :
    predDescend item (.node l x (.node rl rx rr)) acc =
      predDescend item (.node rl rx rr) (acc ++ [x]) := by
  conv_lhs => rw [predDescend.eq_def]
  simp only [if_neg (asymm h2), if_pos h2]

theorem predDescend_eq_leaf {item : α} (r : Tree α) (acc : List α) :
    predDescend item (.node .leaf item r) acc = acc := by
  unfold predDescend
  rw [if_neg (lt_irrefl item), if_neg (lt_irrefl item)]

theorem predDescend_eq_node {item : α} (ll : Tree α) (lx : α) (lr r : Tree α)
    (acc : List α) :
    predDescend item (.node (.node ll lx lr) item r) acc =
      predDescend item (.node ll lx lr) acc := by
  conv_lhs => rw [predDescend.eq_def]
  simp only [if_neg (lt_irrefl item)]

theorem predDescend_spec {item : α} :
    ∀ (t : Tree α), t.ordered →
    ∀ acc : List α,
      (∀ y ∈ predDescend item t acc, y ∈ acc ∨ (y ∈ t.inorder ∧ y < item)) ∧
      (∀ y ∈ t.inorder, y < item → ∃ z ∈ predDescend item t acc, y ≤ z) ∧
      (∀ y ∈ acc, y ∈ predDescend item t acc) := by
  intro t
  induction t with
  | leaf =>
    intro _ acc
    exact ⟨fun y hy => Or.inl hy, fun y hy => absurd hy (by simp), fun y hy => hy⟩
  | node l x r ihl ihr =>
    intro ho acc
    rcases ho with ⟨hl, hr, hol, hor⟩
    rcases lt_trichotomy item x with h1 | h1 | h1
    · cases l with
      | leaf =>
        rw [predDescend_lt_leaf r h1]
        refine ⟨fun y hy => Or.inl hy, ?_, fun y hy => hy⟩
        intro y hy hylt
        rw [Tree.inorder_node] at hy
        rcases List.mem_append.1 hy with hy | hy
        · exact absurd hy (by simp)
        · rcases List.mem_cons.1 hy with rfl | hy
          · exact absurd (lt_trans hylt h1) (lt_irrefl y)
          · exact absurd hylt (not_lt.2 (le_trans (le_of_lt h1) (hr y hy)))
      | node ll lx lr =>
        rw [predDescend_lt_node ll lx lr r h1]
        rcases ihl hol acc with ⟨s1, s2, s3⟩
        refine ⟨?_, ?_, s3⟩
        · intro y hy
          rcases s1 y hy with hy | ⟨hy1, hy2⟩
          · exact Or.inl hy
          · exact Or.inr ⟨mem_inorder_left hy1, hy2⟩
        · intro y hy hylt
          rw [Tree.inorder_node] at hy
          rcases List.mem_append.1 hy with hy | hy
          · exact s2 y hy hylt
          · rcases List.mem_cons.1 hy with rfl | hy
            · exact absurd (lt_trans hylt h1) (lt_irrefl y)
            · exact absurd hylt (not_lt.2 (le_trans (le_of_lt h1) (hr y hy)))
    · subst h1
      cases l with
      | leaf =>
        rw [predDescend_eq_leaf r acc]
        refine ⟨fun y hy => Or.inl hy, ?_, fun y hy => hy⟩
        intro y hy hylt
        rw [Tree.inorder_node] at hy
        rcases List.mem_append.1 hy with hy | hy
        · exact absurd hy (by simp)
        · rcases List.mem_cons.1 hy with rfl | hy
          · exact absurd hylt (lt_irrefl y)
          · exact absurd hylt (not_lt.2 (hr y hy))
      | node ll lx lr =>
        rw [predDescend_eq_node ll lx lr r acc]
        rcases ihl hol acc with ⟨s1, s2, s3⟩
        refine ⟨?_, ?_, s3⟩
        · intro y hy
          rcases s1 y hy with hy | ⟨hy1, hy2⟩
          · exact Or.inl hy
          · exact Or.inr ⟨mem_inorder_left hy1, hy2⟩
        · intro y hy hylt
          rw [Tree.inorder_node] at hy
          rcases List.mem_append.1 hy with hy | hy
          · exact s2 y hy hylt
          · rcases List.mem_cons.1 hy with rfl | hy
            · exact absurd hylt (lt_irrefl y)
            · exact absurd hylt (not_lt.2 (hr y hy))
    · cases r with
      | leaf =>
        rw [predDescend_gt_leaf l h1 acc]
        refine ⟨?_, ?_, fun y hy => List.mem_append.2 (Or.inl hy)⟩
        · intro y hy
          rcases List.mem_append.1 hy with hy | hy
          · exact Or.inl hy
          · rw [List.mem_singleton] at hy
            subst hy
            exact Or.inr ⟨mem_inorder_self, h1⟩
        · intro y hy hylt
          refine ⟨x, List.mem_append.2 (Or.inr (by simp)), ?_⟩
          rw [Tree.inorder_node] at hy
          rcases List.mem_append.1 hy with hy | hy
          · exact hl y hy
          · rcases List.mem_cons.1 hy with rfl | hy
            · exact le_refl y
            · exact absurd hy (by simp)
      | node rl rx rr =>
        rw [predDescend_gt_node l rl rx rr h1 acc]
        rcases ihr hor (acc ++ [x]) with ⟨s1, s2, s3⟩
        refine ⟨?_, ?_, ?_⟩
        · intro y hy
          rcases s1 y hy with hy | ⟨hy1, hy2⟩
          · rcases List.mem_append.1 hy with hy | hy
            · exact Or.inl hy
            · rw [List.mem_singleton] at hy
              subst hy
              exact Or.inr ⟨mem_inorder_self, h1⟩
          · exact Or.inr ⟨mem_inorder_right hy1, hy2⟩
        · intro y hy hylt
          rw [Tree.inorder_node] at hy
          rcases List.mem_append.1 hy with hy | hy
          · exact ⟨x, s3 x (List.mem_append.2 (Or.inr (by simp))), hl y hy⟩
          · rcases List.mem_cons.1 hy with rfl | hy
            · exact ⟨y, s3 y (List.mem_append.2 (Or.inr (by simp))), le_refl y⟩
            · exact s2 y hy hylt
        · intro y hy
          exact s3 y (List.mem_append.2 (Or.inl hy))

/-! Claim theorems. -/

/-- C1: for every sequence of `add` and successful `remove` operations
starting from the empty tree (and also after `clear` and `rebalance`), an
in-order traversal of the resulting tree yields its items in
non-decreasing order, duplicates and two-child deletions included. -/
theorem c1_inorder_sorted (b : LinkedBST α) (h : Reachable b) :
    b.root.inorder.Sorted (· ≤ ·) :=
  Tree.ordered_sorted (reachable_inv h).1

/-- Witness for C1 at the concrete state reached by inserting
`[5,3,8,1,4,7,9]` and then successfully removing the two-child root `5`. -/
theorem c1_witness :
    (remove (buildBST [5, 3, 8, 1, 4, 7, 9] : LinkedBST Int) 5).2.root.inorder.Sorted (· ≤ ·) :=
  c1_inorder_sorted _
    (Reachable.remove _ 5
      (Reachable.add _ 9 (Reachable.add _ 7 (Reachable.add _ 4 (Reachable.add _ 1
        (Reachable.add _ 8 (Reachable.add _ 3 (Reachable.add _ 5 Reachable.empty))))))))

/-- C2: `successor`'s own docstring promises the smallest stored item
strictly greater than the argument, but on the tree built from
`[10, 2, 6]` the call `successor(2)` returns `2` itself, although the
strictly greater item `6` is stored: the code contradicts its
documentation (and the claim). -/
theorem c2_successor_code_bug :
    successor (buildBST [10, 2, 6] : LinkedBST Int) 2 = .ok (some 2) ∧
    (6 : Int) ∈ (buildBST [10, 2, 6] : LinkedBST Int).root.inorder ∧
    (2 : Int) < 6 ∧ ¬ (2 : Int) < 2 :=
  ⟨rfl, by decide, by decide, by decide⟩

/-- C3: `remove` raises `KeyError` exactly when the item is not stored;
when it raises, the state (root and size) is unchanged; when it does not
raise, it returns the removed item's value, equal to the argument. -/
theorem c3_remove_error_handling (b : LinkedBST α) (hInv : Inv b) (item : α) :
    ((remove b item).1 = .error () ↔ item ∉ b.root.inorder) ∧
    ((remove b item).1 = .error () → (remove b item).2 = b) ∧
    (∀ r, (remove b item).1 = .ok r → r = some item) := by
  by_cases hm : item ∈ b.root.inorder
  · rcases remove_of_mem hInv hm with ⟨t, _, heq⟩
    refine ⟨?_, ?_, ?_⟩
    · rw [heq]
      simp [hm]
    · rw [heq]
      intro hcon
      exact absurd hcon (by simp)
    · intro r hr
      rw [heq] at hr
      simp only at hr
      cases hr
      rfl
  · rw [remove_of_not_mem hInv.1 hm]
    exact ⟨by simp [hm], fun _ => rfl, fun r hr => absurd hr (by simp)⟩

/-- Witness for C3 on the tree built from `[5, 3, 8]` with the stored
item `5`. -/
theorem c3_witness :
    ((remove (buildBST [5, 3, 8] : LinkedBST Int) 5).1 = .error () ↔
      (5 : Int) ∉ (buildBST [5, 3, 8] : LinkedBST Int).root.inorder) ∧
    ((remove (buildBST [5, 3, 8] : LinkedBST Int) 5).1 = .error () →
      (remove (buildBST [5, 3, 8] : LinkedBST Int) 5).2 = buildBST [5, 3, 8]) ∧
    (∀ r, (remove (buildBST [5, 3, 8] : LinkedBST Int) 5).1 = .ok r → r = some 5) :=
  c3_remove_error_handling _ ⟨by decide, by decide⟩ 5

/-- C4: in every reachable state the size counter equals the number of
nodes reachable from the root (equivalently the number of items yielded by
a full traversal); `add` always increments it by exactly 1 (duplicates
included), a successful `remove` decrements it by exactly 1, and after
`clear` it is 0. -/
theorem c4_size_consistency (b : LinkedBST α) (h : Reachable b) (x : α) :
    b.size = b.root.count ∧
    b.size = b.root.inorder.length ∧
    (add b x).size = b.size + 1 ∧
    (∀ v b2, remove b x = (.ok (some v), b2) → b2.size + 1 = b.size) ∧
    (clear b).size = 0 := by
  have hInv := reachable_inv h
  refine ⟨hInv.2, by rw [hInv.2, Tree.count_eq_length], add_size b x, ?_, rfl⟩
  intro v b2 hveq
  by_cases hm : x ∈ b.root.inorder
  · rcases remove_of_mem hInv hm with ⟨t, _, heq⟩
    rw [heq] at hveq
    injection hveq with h1 h2
    have hpos := size_pos_of_mem hInv.2 hm
    rw [← h2]
    simp only
    omega
  · rw [remove_of_not_mem hInv.1 hm] at hveq
    injection hveq with h1 h2
    exact absurd h1 (by simp)

/-- Witness for C4 at the reachable state built from `[2, 1, 3]` with
`x = 2` (present, so `remove` succeeds). -/
theorem c4_witness :
    (buildBST [2, 1, 3] : LinkedBST Int).size = (buildBST [2, 1, 3] : LinkedBST Int).root.count ∧
    (buildBST [2, 1, 3] : LinkedBST Int).size
      = (buildBST [2, 1, 3] : LinkedBST Int).root.inorder.length ∧
    (add (buildBST [2, 1, 3] : LinkedBST Int) 2).size = (buildBST [2, 1, 3] : LinkedBST Int).size + 1 ∧
    (∀ v b2, remove (buildBST [2, 1, 3] : LinkedBST Int) 2 = (.ok (some v), b2) →
      b2.size + 1 = (buildBST [2, 1, 3] : LinkedBST Int).size) ∧
    (clear (buildBST [2, 1, 3] : LinkedBST Int)).size = 0 :=
  c4_size_consistency _
    (Reachable.add _ 3 (Reachable.add _ 1 (Reachable.add _ 2 Reachable.empty))) 2

/-- C5: `rebalance` preserves the multiset of stored items, and on any
tree satisfying the BST order invariant (every tree this program builds)
the in-order traversal after `rebalance` is element-for-element equal to
the one before. -/
theorem c5_rebalance_preserves_inorder (b : LinkedBST α) (h : b.root.ordered) :
    (((rebalance b).root.inorder : List α) : Multiset α) = ↑b.root.inorder ∧
    (rebalance b).root.inorder = b.root.inorder := by
  refine ⟨rebalance_coe b, ?_⟩
  exact List.eq_of_perm_of_sorted (Multiset.coe_eq_coe.1 (rebalance_coe b))
    (Tree.ordered_sorted (rebalance_inv b).1) (Tree.ordered_sorted h)

/-- Witness for C5 on the tree built by inserting the sorted list
`[1, 2, 3]`. -/
theorem c5_witness :
    (((rebalance (buildBST [1, 2, 3] : LinkedBST Int)).root.inorder : List Int) : Multiset Int)
      = ↑(buildBST [1, 2, 3] : LinkedBST Int).root.inorder ∧
    (rebalance (buildBST [1, 2, 3] : LinkedBST Int)).root.inorder
      = (buildBST [1, 2, 3] : LinkedBST Int).root.inorder :=
  c5_rebalance_preserves_inorder _ (by decide)

/-- C6 corrected: when the stored items are pairwise distinct (the
in-order list is strictly increasing), `rebalance` produces a tree with
`height() <= ceil(log2(n+1)) - 1` on `n` items, hence `is_balanced()`
afterwards is true.  (With duplicate items the bound fails, see the
counterexample.) -/
theorem c6_balance_bound_distinct (b : LinkedBST α)
    (h : b.root.inorder.Pairwise (· < ·)) :
    (rebalance b).size = b.root.inorder.length ∧
    (rebalance b).root.height ≤ (Nat.clog 2 (b.root.inorder.length + 1) : Int) - 1 ∧
    is_balanced (rebalance b) = true := by
  have he := rebalance_eq b
  refine ⟨by rw [he], ?_, ?_⟩
  · rw [he]
    exact rebuildT_height _ _ h le_rfl
  · rw [he]
    unfold is_balanced
    rw [decide_eq_true_eq]
    exact rebuildT_height _ _ h le_rfl

/-- Counterexample for C6 as stated: after inserting the duplicate items
`[3, 3, 3]`, `rebalance` leaves a right spine of height 2, while the
claimed bound `ceil(log2(3+1)) - 1` is 1, so `is_balanced()` is false. -/
theorem c6_counterexample :
    (rebalance (buildBST [3, 3, 3] : LinkedBST Int)).root.height = 2 ∧
    (rebalance (buildBST [3, 3, 3] : LinkedBST Int)).size = 3 ∧
    (Nat.clog 2 (3 + 1) : Int) - 1 = 1 ∧
    is_balanced (rebalance (buildBST [3, 3, 3] : LinkedBST Int)) = false := by
  have hc4 : Nat.clog 2 4 = 2 := clog2_eq_of 4 2 (by norm_num) (Or.inr (by norm_num))
  have hroot : (rebalance (buildBST [3, 3, 3] : LinkedBST Int)).root =
      .node .leaf 3 (.node .leaf 3 (.node .leaf 3 .leaf)) := by
    rw [rebalance_eq]
    rfl
  have hsize : (rebalance (buildBST [3, 3, 3] : LinkedBST Int)).size = 3 := by
    rw [rebalance_eq]
    rfl
  refine ⟨by rw [hroot]; decide, hsize, ?_, ?_⟩
  · rw [show (3 : Nat) + 1 = 4 from rfl, hc4]
    decide
  · unfold is_balanced
    simp only [hroot, hsize, hc4]
    decide

/-- Witness for the corrected C6 on the distinct items `[1, 2, 3]`. -/
theorem c6_witness :
    (rebalance (buildBST [1, 2, 3] : LinkedBST Int)).size
      = (buildBST [1, 2, 3] : LinkedBST Int).root.inorder.length ∧
    (rebalance (buildBST [1, 2, 3] : LinkedBST Int)).root.height
      ≤ (Nat.clog 2 ((buildBST [1, 2, 3] : LinkedBST Int).root.inorder.length + 1) : Int) - 1 ∧
    is_balanced (rebalance (buildBST [1, 2, 3] : LinkedBST Int)) = true :=
  c6_balance_bound_distinct _ (by decide)

/-- C7 corrected: for integer items, `range_find(low, high)` returns, in
ascending order, exactly the stored items `x` with `low ≤ x ≤ high`
(inclusive bounds).  (For non-integer comparable items the
`item in range(low, high+1)` membership test is always false, see the
counterexample.) -/
theorem c7_range_find_int (b : LinkedBST Int) (low high : Int) (h : b.root.ordered) :
    (∀ x : Int, x ∈ range_find b low high ↔ x ∈ b.root.inorder ∧ low ≤ x ∧ x ≤ high) ∧
    (range_find b low high).Sorted (· ≤ ·) := by
  constructor
  · intro x
    unfold range_find
    rw [List.mem_filter]
    simp only [decide_eq_true_eq]
  · exact (Tree.ordered_sorted h).filter _

/-- Counterexample for C7 as stated: on a tree of rational items holding
`7/2`, `range_find(3, 7)` returns the empty list although `3 ≤ 7/2 ≤ 7`
holds for the stored item. -/
theorem c7_counterexample :
    range_find_rat (buildBST [Rat.mk' 7 2]) 3 7 = [] ∧
    Rat.mk' 7 2 ∈ (buildBST [Rat.mk' 7 2] : LinkedBST Rat).root.inorder ∧
    (3 : Rat) ≤ Rat.mk' 7 2 ∧ (Rat.mk' 7 2 : Rat) ≤ 7 :=
  ⟨by decide, by decide, by decide, by decide⟩

/-- Witness for the corrected C7: from `{1, ..., 10}`, `range_find(3, 7)`
returns exactly `[3, 4, 5, 6, 7]` in ascending order. -/
theorem c7_witness :
    ((∀ x : Int, x ∈ range_find (buildBST [1, 2, 3, 4, 5, 6, 7, 8, 9, 10]) 3 7 ↔
      x ∈ (buildBST [1, 2, 3, 4, 5, 6, 7, 8, 9, 10] : LinkedBST Int).root.inorder
        ∧ 3 ≤ x ∧ x ≤ 7) ∧
    (range_find (buildBST [1, 2, 3, 4, 5, 6, 7, 8, 9, 10]) 3 7).Sorted (· ≤ ·)) ∧
    range_find (buildBST [1, 2, 3, 4, 5, 6, 7, 8, 9, 10]) 3 7 = [3, 4, 5, 6, 7] :=
  ⟨c7_range_find_int _ 3 7 (by decide), by decide⟩

/-- C8: on every non-empty tree satisfying the BST order invariant,
`predecessor(item)` returns the largest stored item strictly less than
`item`, or `None` when no stored item is strictly less than `item`. -/
theorem c8_predecessor_correct (b : LinkedBST α) (ho : b.root.ordered)
    (hne : b.root ≠ .leaf) (item : α) :
    (predecessor b item = .ok none ∧ ∀ y ∈ b.root.inorder, ¬ y < item) ∨
    (∃ v, predecessor b item = .ok (some v) ∧ v ∈ b.root.inorder ∧ v < item ∧
      ∀ y ∈ b.root.inorder, y < item → y ≤ v) := by
  cases hr : b.root with
  | leaf => exact absurd hr hne
  | node l x r =>
    have hpred : predecessor b item = .ok (pythonMax (predDescend item (.node l x r) [])) := by
      unfold predecessor
      rw [hr]
    have ho2 : (Tree.node l x r).ordered := by rw [← hr]; exact ho
    rcases predDescend_spec (.node l x r) ho2 [] with ⟨s1, s2, s3⟩
    cases hm : pythonMax (predDescend item (.node l x r) []) with
    | none =>
      left
      refine ⟨by rw [hpred, hm], ?_⟩
      intro y hy hylt
      have hemp : predDescend item (.node l x r) [] = [] := (pythonMax_nil_iff _).1 hm
      rcases s2 y hy hylt with ⟨z, hz, _⟩
      rw [hemp] at hz
      exact absurd hz (by simp)
    | some v =>
      right
      rcases pythonMax_spec hm with ⟨hv1, hv2⟩
      rcases s1 v hv1 with hv | ⟨hv3, hv4⟩
      · exact absurd hv (by simp)
      · refine ⟨v, by rw [hpred, hm], hv3, hv4, ?_⟩
        intro y hy hylt
        rcases s2 y hy hylt with ⟨z, hz1, hz2⟩
        exact le_trans hz2 (hv2 z hz1)

/-- Witness for C8 on the tree from `{1, 3, 5, 7, 9}` with `item = 5`,
together with the spec's concrete readouts `predecessor(5) == 3` and
`predecessor(1) == None`. -/
theorem c8_witness :
    ((predecessor (buildBST [1, 3, 5, 7, 9] : LinkedBST Int) 5 = .ok none ∧
      ∀ y ∈ (buildBST [1, 3, 5, 7, 9] : LinkedBST Int).root.inorder, ¬ y < 5) ∨
    (∃ v, predecessor (buildBST [1, 3, 5, 7, 9] : LinkedBST Int) 5 = .ok (some v) ∧
      v ∈ (buildBST [1, 3, 5, 7, 9] : LinkedBST Int).root.inorder ∧ v < 5 ∧
      ∀ y ∈ (buildBST [1, 3, 5, 7, 9] : LinkedBST Int).root.inorder, y < 5 → y ≤ v)) ∧
    predecessor (buildBST [1, 3, 5, 7, 9] : LinkedBST Int) 5 = .ok (some 3) ∧
    predecessor (buildBST [1, 3, 5, 7, 9] : LinkedBST Int) 1 = .ok none :=
  ⟨c8_predecessor_correct _ (by decide) (by decide) 5, rfl, rfl⟩

/-- C9 counterexample: for the tree built from `[5, 3, 8, 1, 4, 7, 9]`,
`height()` is not 3 (the shape is the perfect tree of height 2). -/
theorem c9_counterexample :
    (buildBST [5, 3, 8, 1, 4, 7, 9] : LinkedBST Int).root.height ≠ 3 := by
  decide

/-- C9 corrected: for the tree built from `[5, 3, 8, 1, 4, 7, 9]`,
`find(4)` returns `4` and `height()` returns 2. -/
theorem c9_scenario :
    find (buildBST [5, 3, 8, 1, 4, 7, 9] : LinkedBST Int) 4 = some 4 ∧
    (buildBST [5, 3, 8, 1, 4, 7, 9] : LinkedBST Int).root.height = 2 := by
  exact ⟨by decide, by decide⟩

/-- C10: on the empty tree both `successor` and `predecessor` read
`root.data` from the absent root and hit the error branch
(`AttributeError`) for every argument, instead of returning a
not-found result. -/
theorem c10_empty_tree_error (item : Int) :
    successor (⟨.leaf, 0⟩ : LinkedBST Int) item = .error () ∧
    predecessor (⟨.leaf, 0⟩ : LinkedBST Int) item = .error () :=
  ⟨rfl, rfl⟩

/-- Witness for C10 at the concrete argument 0. -/
theorem c10_witness :
    successor (⟨.leaf, 0⟩ : LinkedBST Int) 0 = .error () ∧
    predecessor (⟨.leaf, 0⟩ : LinkedBST Int) 0 = .error () :=
  c10_empty_tree_error 0

end LinkedBSTModel
